/-
Verification of the stripe/shard encoder pipeline of this repository
(examples/simple-encoder.go) against its natural-language specification.

The development shallowly embeds the encoder:
  * `Cfg`, `stripeSize`, `stripeNum` mirror the configuration and the
    stripe arithmetic of `main` (lines 112-118 of the source);
  * `genRandomArr` mirrors the placement shuffler (lines 67-75), with the
    pseudo-random draws abstracted into an oracle `r : Nat -> Nat`
    (the value drawn for swap index `i` is `r i % (i+1)`, which ranges
    over exactly the values Go's `Intn(i+1)` can produce);
  * `encLoop` / `runEncoder` mirror the stripe loop (lines 119-157),
    including the reused stripe buffer, the ledger array indexed by
    `stripeno`, the per-stripe re-opening of destination files, the
    discarded `Write` error, the `b < stripeSize` break condition and
    the out-of-range ledger assignment that terminates the process
    abnormally;
  * the black-box codec (`reedsolomon.Split` / `Encode`), whose source is
    not part of this repository snapshot, is modelled from the spec.

Machine integers (`int`, `int64`) are modelled as `Nat`: every quantity
involved (byte counts, shard counts, indices) is non-negative and far
below 2^63, so no overflow reduction is needed.
-/
import Mathlib

namespace SimpleEnc

/-- Encoder configuration: `k` data shards, `m` parity shards, `bs` bytes
per shard (the `-data`, `-par`, `-bs` flags of the source). -/
structure Cfg where
  k : Nat
  m : Nat
  bs : Nat
deriving DecidableEq

/-- Total shard count `k + m` (the length of `of` / of each permutation). -/
def shardCount (c : Cfg) : Nat := c.k + c.m

/-- Line 113 of the source: `stripeSize := int64(*dataShards) * (*blockSize)`. -/
def stripeSize (c : Cfg) : Nat := c.k * c.bs

/-- Line 117 of the source: `stripeNum := (fileSize + stripeSize - 1) / stripeSize`.
For `stripeSize > 0` the Nat version agrees with Go's `int64` division. -/
def stripeNum (c : Cfg) (fileSize : Nat) : Nat :=
  (fileSize + stripeSize c - 1) / stripeSize c

/-- One Go slice swap `shuff[i], shuff[j] = shuff[j], shuff[i]`:
both old values are read from `l`, then both positions are assigned. -/
def swapAt (l : List Nat) (i j : Nat) : List Nat :=
  (l.set i (l.getD j 0)).set j (l.getD i 0)

/-- The loop of Go `rand.Shuffle`: `for i := n-1; i > 0; i-- { j := Intn(i+1); swap(i, j) }`.
`shuffleFrom r i l` performs the swaps for indices `i, i-1, ..., 1`; the draw at
index `i` is `r i % (i+1)`, covering exactly the range `[0, i]` of `Intn(i+1)`. -/
def shuffleFrom (r : Nat → Nat) : Nat → List Nat → List Nat
  | 0, l => l
  | i+1, l => shuffleFrom r i (swapAt l (i+1) (r (i+1) % (i+2)))

/-- Lines 67-75 of the source: build the identity slice `[0, ..., n-1]`,
then `rand.Shuffle` it.  The time-based seed is abstracted into the
draw oracle `r`. -/
def genRandomArr (n : Nat) (r : Nat → Nat) : List Nat :=
  shuffleFrom r (n - 1) (List.range n)

theorem set_getD_self (l : List Nat) (i : Nat) (h : i < l.length) :
    l.set i (l.getD i 0) = l := by
  rw [List.getD_eq_getElem l 0 h]
  apply List.ext_getElem (by simp)
  intro n h1 h2
  rw [List.getElem_set]
  split
  · rename_i he
    subst he
    rfl
  · rfl

theorem perm_swap_mid (A B C : List Nat) (a b : Nat) :
    List.Perm (A ++ a :: (B ++ b :: C)) (A ++ b :: (B ++ a :: C)) := by
  apply List.Perm.append_left
  refine ((List.Perm.cons a List.perm_middle).trans ?_).trans
    (List.Perm.cons b List.perm_middle.symm)
  exact List.Perm.swap b a (B ++ C)

theorem set_set_decomp (l : List Nat) (i j x y : Nat) (hij : i < j)
    (hj : j < l.length) :
    (l.set i x).set j y
      = l.take i ++ x :: ((l.drop (i+1)).take (j - (i+1)) ++ y :: l.drop (j+1)) := by
  have hi : i < l.length := lt_trans hij hj
  have hX : j < (l.set i x).length := by
    rw [List.length_set]; exact hj
  rw [List.set_eq_take_cons_drop y hX]
  rw [List.drop_set_of_lt x l (Nat.lt_succ_of_lt hij)]
  have hitj : i < (l.take j).length := by
    rw [List.length_take]
    exact lt_min hij hi
  rw [List.set_take, List.set_eq_take_cons_drop x hitj]
  rw [List.take_take, Nat.min_eq_left (Nat.le_of_lt hij)]
  rw [List.drop_take]
  simp [List.append_assoc]

theorem list_swap_decomp (l : List Nat) (i j : Nat) (hij : i < j)
    (hj : j < l.length) :
    l = l.take i ++ l.getD i 0
          :: ((l.drop (i+1)).take (j - (i+1)) ++ l.getD j 0 :: l.drop (j+1)) := by
  have hi : i < l.length := lt_trans hij hj
  have h2 := set_set_decomp l i j (l.getD i 0) (l.getD j 0) hij hj
  rw [set_getD_self l i hi, set_getD_self l j hj] at h2
  exact h2

theorem swapAt_perm (l : List Nat) (i j : Nat) (hi : i < l.length)
    (hj : j < l.length) : List.Perm (swapAt l i j) l := by
  rcases Nat.lt_trichotomy i j with hij | hij | hij
  · rw [swapAt, set_set_decomp l i j _ _ hij hj]
    conv_rhs => rw [list_swap_decomp l i j hij hj]
    exact perm_swap_mid _ _ _ _ _
  · subst hij
    rw [swapAt, set_getD_self l i hi, set_getD_self l i hi]
  · rw [swapAt, List.set_comm _ _ _ (Nat.ne_of_gt hij)]
    have : (l.set j (l.getD i 0)).set i (l.getD j 0) = swapAt l j i := rfl
    rw [this]
    rw [swapAt, set_set_decomp l j i _ _ hij hi]
    conv_rhs => rw [list_swap_decomp l j i hij hi]
    exact perm_swap_mid _ _ _ _ _

theorem shuffleFrom_perm (r : Nat → Nat) (i : Nat) :
    ∀ l : List Nat, i < l.length → List.Perm (shuffleFrom r i l) l := by
  induction i with
  | zero => intro l _; exact List.Perm.refl l
  | succ i ih =>
    intro l hl
    have hsw : List.Perm (swapAt l (i+1) (r (i+1) % (i+2))) l := by
      apply swapAt_perm l _ _ hl
      calc r (i+1) % (i+2) < i + 2 := Nat.mod_lt _ (Nat.succ_pos _)
        _ ≤ l.length := hl
    have hlen : (swapAt l (i+1) (r (i+1) % (i+2))).length = l.length := by
      unfold swapAt
      rw [List.length_set, List.length_set]
    have := ih (swapAt l (i+1) (r (i+1) % (i+2)))
      (by rw [hlen]; exact Nat.lt_of_succ_lt hl)
    exact List.Perm.trans (by simpa [shuffleFrom] using this) hsw

/-- `genRandomArr n r` is always a rearrangement of `[0, ..., n-1]`. -/
theorem genRandomArr_perm (n : Nat) (r : Nat → Nat) :
    List.Perm (genRandomArr n r) (List.range n) := by
  cases n with
  | zero => simp [genRandomArr, shuffleFrom]
  | succ n =>
    cases n with
    | zero => simp [genRandomArr, shuffleFrom]
    | succ n =>
      apply shuffleFrom_perm
      rw [List.length_range]
      omega

/-- Observable I/O events of one run: input-file events of the prologue
(lines 95-110) and, per stripe and destination `dest`, the `OpenFile` of
line 145, the `Write` of line 147 (`failed` records whether the underlying
write returned an error - the source discards that error), and the `Close`
of line 156. -/
inductive Ev where
  | inAcq : Ev
  | inStat : Ev
  | inHash : Ev
  | fop (dest : Nat) : Ev
  | fwr (dest : Nat) (bytes : List Nat) (failed : Bool) : Ev
  | fcl (dest : Nat) : Ev
deriving DecidableEq

/-- How the run ends: `ok` = the loop breaks and falls through to the
closes (normal exit), `oobCrash` = the out-of-range slice assignment
`distribution[stripeno] = ...` of line 139 aborts the process,
`fuelOut` = artefact of the fuel-bounded embedding (never reached with
the fuel `runEncoderWith` supplies). -/
inductive Outcome where
  | ok : Outcome
  | oobCrash : Outcome
  | fuelOut : Outcome
deriving DecidableEq

/-- Result of the stripe loop: how it ended, how many stripes were fully
written, the final stream cursor, the final `distribution` ledger, the
destination I/O events in order, and the final contents of the reused
`data` buffer. -/
structure RunOut where
  outcome : Outcome
  stripes : Nat
  pos : Nat
  ledger : List (List Nat)
  events : List Ev
  lastData : List Nat
deriving DecidableEq

/-- Modelled from the spec: the black-box codec's `split(buffer, k)`
(§4.2) partitions the `k * blockSize`-byte buffer into `k` data shards of
`blockSize` bytes each.  The codec's own source (`reedsolomon.Split`) is
not part of this repository snapshot. -/
def splitShards (c : Cfg) (data : List Nat) : List (List Nat) :=
  (List.range c.k).map (fun i => (data.drop (i * c.bs)).take c.bs)

/-- Modelled from the spec: the black-box codec's `encode` (§4.2) appends
`m` parity shards computed deterministically from the data shards; the
Galois-field mathematics is abstracted into the parameter `pf`, which maps
the data shards and a parity index to that parity shard's bytes.  The
codec's own source (`reedsolomon.Encode`) is not part of this repository
snapshot. -/
def encodeShards (pf : List (List Nat) → Nat → List Nat) (c : Cfg)
    (data : List Nat) : List (List Nat) :=
  splitShards c data ++ (List.range c.m).map (pf (splitShards c data))

/-- Lines 140-149 of the source: for each `i` in `[0, k+m)`, re-open
destination `i` for create-or-append, then append `shards[j]` where
`j := distribution[stripeno][i]`; the error returned by `Write` is
discarded (line 147 does not assign it), so a failed write (`we i`)
leaves the control flow unchanged. -/
def stripeWrites (c : Cfg) (we : Nat → Bool) (shards : List (List Nat))
    (perm : List Nat) : List Ev :=
  ((List.range (shardCount c)).map
    (fun i => [Ev.fop i, Ev.fwr i (shards.getD (perm.getD i 0) []) (we i)])).flatten

/-- Lines 155-157 of the source: close every destination handle. -/
def closeEvs (c : Cfg) : List Ev :=
  (List.range (shardCount c)).map Ev.fcl

/-- The stripe loop, lines 119-157 of the source.  State: remaining fuel
(the embedding's termination bound - `runEncoderWith` supplies enough that
`fuelOut` is never reached), stream cursor `pos`, the reused `data`
buffer, `stripeno`, the `distribution` ledger, and the event trace so far.
Oracles: `pf` the codec parity (see `encodeShards`), `rng` the
time-seeded random draws (stripe index -> draw oracle), `wErr` which
destination writes fail (stripe index -> destination -> failed), and
`rdr` the byte count each `bufio` read call delivers, clamped by the
`io.Reader` contract to at most `min (remaining input) (len data)`. -/
def encLoop (c : Cfg) (pf : List (List Nat) → Nat → List Nat)
    (rng : Nat → Nat → Nat) (wErr : Nat → Nat → Bool) (rdr : Nat → Nat)
    (input : List Nat) :
    Nat → Nat → List Nat → Nat → List (List Nat) → List Ev → RunOut
  | 0, pos, dataBuf, sno, ldg, evs =>
    ⟨Outcome.fuelOut, sno, pos, ldg, evs, dataBuf⟩
  | fuel+1, pos, dataBuf, sno, ldg, evs =>
    let b := min (rdr sno) (min (input.length - pos) (stripeSize c))
    let dataBuf' := (input.drop pos).take b ++ dataBuf.drop b
    let shards := encodeShards pf c dataBuf'
    if sno < ldg.length then
      let perm := genRandomArr (shardCount c) (rng sno)
      let ldg' := ldg.set sno perm
      let evs' := evs ++ stripeWrites c (wErr sno) shards perm
      if b < stripeSize c then
        ⟨Outcome.ok, sno + 1, pos + b, ldg', evs' ++ closeEvs c, dataBuf'⟩
      else
        encLoop c pf rng wErr rdr input fuel (pos + b) dataBuf' (sno + 1) ldg' evs'
    else
      ⟨Outcome.oobCrash, sno, pos + b, ldg, evs, dataBuf'⟩

/-- Lines 112-157 of the source: zero `data` buffer of `stripeSize` bytes,
`of` destinations, `distribution := make([][]int, stripeNum)`, then the
stripe loop from cursor 0 and `stripeno = 0`. -/
def runEncoderWith (c : Cfg) (pf : List (List Nat) → Nat → List Nat)
    (rng : Nat → Nat → Nat) (wErr : Nat → Nat → Bool) (rdr : Nat → Nat)
    (input : List Nat) : RunOut :=
  encLoop c pf rng wErr rdr input (stripeNum c input.length + 1) 0
    (List.replicate (stripeSize c) 0) 0
    (List.replicate (stripeNum c input.length) ([] : List Nat)) []

/-- The run against a regular file: every read delivers
`min (remaining, stripeSize)` bytes, the behavior of `bufio.Reader` over
`os.File`. -/
def runEncoderD (c : Cfg) (pf : List (List Nat) → Nat → List Nat)
    (rng : Nat → Nat → Nat) (wErr : Nat → Nat → Bool)
    (input : List Nat) : RunOut :=
  runEncoderWith c pf rng wErr (fun _ => stripeSize c) input

/-- The fault-free regular-file run. -/
def runEncoder (c : Cfg) (pf : List (List Nat) → Nat → List Nat)
    (rng : Nat → Nat → Nat) (input : List Nat) : RunOut :=
  runEncoderD c pf rng (fun _ _ => false) input

/-- Lines 80-118 of the source in order: the `k+m > 256` configuration
check (lines 85-88, `os.Exit(1)`) happens before `reedsolomon.New` and
before any file I/O (`os.Open`, `os.Stat`, the hash read, every
destination `OpenFile`/`Write`).  On the main path the exit status is 0
for a normal return and 2 when the ledger assignment aborts the process
(Go terminates a crashed process with a non-zero status). -/
def mainRun (c : Cfg) (pf : List (List Nat) → Nat → List Nat)
    (rng : Nat → Nat → Nat) (input : List Nat) : Nat × List Ev :=
  if 256 < c.k + c.m then (1, [])
  else
    let r := runEncoder c pf rng input
    ((if r.outcome = Outcome.ok then 0 else 2),
      [Ev.inAcq, Ev.inStat, Ev.inHash] ++ r.events)

/-- The sequence of byte strings appended to destination `d`, read off the
event trace. -/
def writesTo (evs : List Ev) (d : Nat) : List (List Nat) :=
  evs.filterMap (fun e => match e with
    | Ev.fwr d' bs _ => if d' = d then some bs else none
    | _ => none)

/-- How many times destination `d` is opened during the trace. -/
def opensOf (evs : List Ev) (d : Nat) : Nat :=
  (evs.filter (fun e => e = Ev.fop d)).length

/-- How many times destination `d` is closed during the trace. -/
def closesOf (evs : List Ev) (d : Nat) : Nat :=
  (evs.filter (fun e => e = Ev.fcl d)).length

/-- Permutation recorded for stripe `s` (line 139 of the source). -/
def permAt (c : Cfg) (rng : Nat → Nat → Nat) (s : Nat) : List Nat :=
  genRandomArr (shardCount c) (rng s)

/-- The `stripeSize`-byte window of the input starting at stripe `s`. -/
def windowAt (c : Cfg) (input : List Nat) (s : Nat) : List Nat :=
  (input.drop (s * stripeSize c)).take (stripeSize c)

/-- Contents of the reused `data` buffer on entry to stripe `s` of the
regular-file run: the fresh zero buffer for stripe 0, afterwards the
previous stripe's (full) window. -/
def prevBuf (c : Cfg) (input : List Nat) (s : Nat) : List Nat :=
  if s = 0 then List.replicate (stripeSize c) 0 else windowAt c input (s - 1)

/-- Bytes the stripe-`s` read of the regular-file run delivers. -/
def readLen (c : Cfg) (L s : Nat) : Nat :=
  min (L - s * stripeSize c) (stripeSize c)

/-- Contents of the `data` buffer after the stripe-`s` read: the freshly
read bytes, then whatever the buffer previously held past them. -/
def bufAt (c : Cfg) (input : List Nat) (s : Nat) : List Nat :=
  (input.drop (s * stripeSize c)).take (readLen c input.length s)
    ++ (prevBuf c input s).drop (readLen c input.length s)

/-- Shard set the codec produces for stripe `s`. -/
def shardsAt (c : Cfg) (pf : List (List Nat) → Nat → List Nat)
    (input : List Nat) (s : Nat) : List (List Nat) :=
  encodeShards pf c (bufAt c input s)

/-- Destination events stripe `s` emits. -/
def blockAt (c : Cfg) (pf : List (List Nat) → Nat → List Nat)
    (rng : Nat → Nat → Nat) (wErr : Nat → Nat → Bool)
    (input : List Nat) (s : Nat) : List Ev :=
  stripeWrites c (wErr s) (shardsAt c pf input s) (permAt c rng s)

/-- Destination events of the first `n` stripes, in stripe order. -/
def blocksUpTo (c : Cfg) (pf : List (List Nat) → Nat → List Nat)
    (rng : Nat → Nat → Nat) (wErr : Nat → Nat → Bool)
    (input : List Nat) (n : Nat) : List Ev :=
  ((List.range n).map (blockAt c pf rng wErr input)).flatten

theorem prevBuf_length_le (c : Cfg) (input : List Nat) (s : Nat) :
    (prevBuf c input s).length ≤ stripeSize c := by
  unfold prevBuf
  split
  · simp
  · unfold windowAt
    simp

theorem bufAt_full (c : Cfg) (input : List Nat) (s : Nat)
    (h : (s + 1) * stripeSize c ≤ input.length) :
    bufAt c input s = windowAt c input s := by
  have hss : stripeSize c ≤ input.length - s * stripeSize c := by
    rw [Nat.succ_mul] at h
    omega
  have hrl : readLen c input.length s = stripeSize c := by
    unfold readLen
    omega
  unfold bufAt windowAt
  rw [hrl]
  have : (prevBuf c input s).drop (stripeSize c) = [] :=
    List.drop_eq_nil_of_le (prevBuf_length_le c input s)
  rw [this, List.append_nil]

theorem set_append_len (A : List (List Nat)) (B : List (List Nat))
    (x : List Nat) : (A ++ B).set A.length x = A ++ B.set 0 x := by
  induction A with
  | nil => simp
  | cons a A ih => simp [List.set, ih]

theorem stripeNum_of_zero (c : Cfg) (h : 0 < stripeSize c) :
    stripeNum c 0 = 0 := by
  unfold stripeNum
  rw [Nat.zero_add]
  exact Nat.div_eq_of_lt (by omega)

theorem stripeNum_of_exact (c : Cfg) (N : Nat) (h : 0 < stripeSize c) :
    stripeNum c (N * stripeSize c) = N := by
  unfold stripeNum
  have : N * stripeSize c + stripeSize c - 1
      = stripeSize c - 1 + N * stripeSize c := by omega
  rw [this, Nat.add_mul_div_right _ _ h, Nat.div_eq_of_lt (by omega), Nat.zero_add]

theorem stripeNum_of_nonmult (c : Cfg) (L : Nat) (h : 0 < stripeSize c)
    (hnd : ¬ stripeSize c ∣ L) :
    stripeNum c L = L / stripeSize c + 1 := by
  have hmod := Nat.div_add_mod L (stripeSize c)
  have hr : L % stripeSize c < stripeSize c := Nat.mod_lt _ h
  have hr0 : L % stripeSize c ≠ 0 := by
    intro h0
    exact hnd (Nat.dvd_of_mod_eq_zero h0)
  unfold stripeNum
  have key : L + stripeSize c - 1
      = L % stripeSize c - 1 + (L / stripeSize c + 1) * stripeSize c := by
    have hring : (L / stripeSize c + 1) * stripeSize c
        = stripeSize c * (L / stripeSize c) + stripeSize c := by ring
    rw [hring]
    omega
  rw [key, Nat.add_mul_div_right _ _ h, Nat.div_eq_of_lt (by omega), Nat.zero_add]

theorem encLoop_engine (c : Cfg) (pf : List (List Nat) → Nat → List Nat)
    (rng : Nat → Nat → Nat) (wErr : Nat → Nat → Bool) (input : List Nat)
    (NN : Nat) (j : Nat) :
    ∀ (s fuel : Nat) (evs : List Ev),
      s + j ≤ NN →
      (s + j) * stripeSize c ≤ input.length →
      encLoop c pf rng wErr (fun _ => stripeSize c) input (fuel + j)
          (s * stripeSize c) (prevBuf c input s) s
          ((List.range s).map (permAt c rng)
            ++ List.replicate (NN - s) ([] : List Nat)) evs
        = encLoop c pf rng wErr (fun _ => stripeSize c) input fuel
            ((s + j) * stripeSize c) (prevBuf c input (s + j)) (s + j)
            ((List.range (s + j)).map (permAt c rng)
              ++ List.replicate (NN - (s + j)) ([] : List Nat))
            (evs ++ ((List.range j).map
              (fun t => blockAt c pf rng wErr input (s + t))).flatten) := by
  induction j with
  | zero =>
    intro s fuel evs h1 h2
    simp
  | succ j ih =>
    intro s fuel evs h1 h2
    have hfull : (s + 1) * stripeSize c ≤ input.length :=
      le_trans (Nat.mul_le_mul_right _ (by omega)) h2
    have hb : min (stripeSize c)
        (min (input.length - s * stripeSize c) (stripeSize c)) = stripeSize c := by
      rw [Nat.succ_mul] at hfull
      omega
    have hldglen : ((List.range s).map (permAt c rng)
        ++ List.replicate (NN - s) ([] : List Nat)).length = NN := by
      simp
      omega
    have hslt : s < NN := by omega
    have hbuf' : (input.drop (s * stripeSize c)).take (stripeSize c)
        ++ (prevBuf c input s).drop (stripeSize c) = prevBuf c input (s + 1) := by
      rw [List.drop_eq_nil_of_le (prevBuf_length_le c input s), List.append_nil]
      simp [prevBuf, windowAt]
    have hldg' : (((List.range s).map (permAt c rng)
          ++ List.replicate (NN - s) ([] : List Nat)).set s
            (genRandomArr (shardCount c) (rng s)))
        = (List.range (s + 1)).map (permAt c rng)
          ++ List.replicate (NN - (s + 1)) ([] : List Nat) := by
      have hlen : ((List.range s).map (permAt c rng)).length = s := by simp
      have hsa := set_append_len ((List.range s).map (permAt c rng))
        (List.replicate (NN - s) ([] : List Nat))
        (genRandomArr (shardCount c) (rng s))
      rw [hlen] at hsa
      rw [hsa]
      have hns : NN - s = (NN - (s + 1)) + 1 := by omega
      rw [hns, List.replicate_succ]
      rw [List.range_succ, List.map_append]
      simp [permAt]
    have hblk : stripeWrites c (wErr s)
          (encodeShards pf c (prevBuf c input (s + 1)))
          (genRandomArr (shardCount c) (rng s))
        = blockAt c pf rng wErr input s := by
      unfold blockAt shardsAt permAt
      rw [bufAt_full c input s hfull]
      have : prevBuf c input (s + 1) = windowAt c input s := by
        simp [prevBuf]
      rw [this]
    have hfj : fuel + (j + 1) = (fuel + j) + 1 := by omega
    rw [hfj]
    simp only [encLoop]
    rw [hb, hldglen]
    rw [if_pos hslt, if_neg (lt_irrefl (stripeSize c))]
    rw [hbuf', hldg', hblk]
    have hpos : s * stripeSize c + stripeSize c = (s + 1) * stripeSize c := by
      rw [Nat.succ_mul]
    rw [hpos]
    have h1' : (s + 1) + j ≤ NN := by omega
    have h2' : ((s + 1) + j) * stripeSize c ≤ input.length := by
      have : (s + 1) + j = s + (j + 1) := by omega
      rw [this]
      exact h2
    have := ih (s + 1) fuel (evs ++ blockAt c pf rng wErr input s) h1' h2'
    rw [this]
    have hsj : (s + 1) + j = s + (j + 1) := by omega
    rw [hsj]
    congr 1
    have hadd : ∀ t : Nat, s + 1 + t = s + (t + 1) := by omega
    rw [List.append_assoc]
    congr 1
    rw [List.range_succ_eq_map]
    simp [List.map_map, Function.comp, hadd]
    rfl

theorem prevBuf_zero (c : Cfg) (input : List Nat) :
    prevBuf c input 0 = List.replicate (stripeSize c) 0 := by
  simp [prevBuf]

theorem blocksUpTo_succ (c : Cfg) (pf : List (List Nat) → Nat → List Nat)
    (rng : Nat → Nat → Nat) (wErr : Nat → Nat → Bool) (input : List Nat)
    (n : Nat) :
    blocksUpTo c pf rng wErr input (n + 1)
      = blocksUpTo c pf rng wErr input n ++ blockAt c pf rng wErr input n := by
  simp [blocksUpTo, List.range_succ]

/-- A zero-length input crashes at once: `stripeNum = 0`, so the ledger is
empty, and the first loop iteration's `distribution[0]` assignment is out
of range; no stripe completes and no destination I/O happens. -/
theorem runEncoderD_nil (c : Cfg) (pf : List (List Nat) → Nat → List Nat)
    (rng : Nat → Nat → Nat) (wErr : Nat → Nat → Bool)
    (hss : 0 < stripeSize c) :
    runEncoderD c pf rng wErr []
      = ⟨Outcome.oobCrash, 0, 0, [], [], List.replicate (stripeSize c) 0⟩ := by
  unfold runEncoderD runEncoderWith
  rw [show ([] : List Nat).length = 0 from rfl, stripeNum_of_zero c hss]
  simp [encLoop]

/-- An input whose length is a positive exact multiple `N * stripeSize`
completes its `N` stripes and then crashes: the loop never breaks (every
read is full), so iteration `N` assigns `distribution[N]` past the end of
the `N`-entry ledger. -/
theorem runEncoderD_exact (c : Cfg) (pf : List (List Nat) → Nat → List Nat)
    (rng : Nat → Nat → Nat) (wErr : Nat → Nat → Bool) (input : List Nat)
    (N : Nat) (hss : 0 < stripeSize c)
    (hlen : input.length = N * stripeSize c) :
    runEncoderD c pf rng wErr input
      = ⟨Outcome.oobCrash, N, input.length,
          (List.range N).map (permAt c rng),
          blocksUpTo c pf rng wErr input N,
          prevBuf c input N⟩ := by
  unfold runEncoderD runEncoderWith
  rw [hlen, stripeNum_of_exact c N hss]
  have hf : N + 1 = 1 + N := by omega
  rw [hf]
  have he := encLoop_engine c pf rng wErr input N N 0 1 []
    (by omega)
    (by
      rw [hlen]
      exact Nat.le_of_eq (congrArg (fun t => t * stripeSize c) (Nat.zero_add N)))
  rw [prevBuf_zero] at he
  simp only [Nat.zero_mul, Nat.zero_add, Nat.sub_zero, List.range_zero,
    List.map_nil, List.nil_append, Nat.sub_self, List.replicate_zero,
    List.append_nil] at he
  rw [he]
  simp only [encLoop]
  have hb0 : min (stripeSize c)
      (min (input.length - N * stripeSize c) (stripeSize c)) = 0 := by
    rw [hlen]
    omega
  rw [hb0]
  have hledlen : ((List.range N).map (permAt c rng)).length = N := by simp
  rw [hledlen, if_neg (lt_irrefl N)]
  have hbuf : (input.drop (N * stripeSize c)).take 0
      ++ (prevBuf c input N).drop 0 = prevBuf c input N := by
    simp
  rw [hbuf]
  rw [show N * stripeSize c + 0 = N * stripeSize c from rfl, ← hlen]
  rfl

/-- An input whose length is not a multiple of `stripeSize` terminates
normally: `L / stripeSize` full stripes, one final partial stripe whose
read count is short of `stripeSize` (triggering the `break`), then the
closes.  The final buffer is `bufAt` of the last stripe. -/
theorem runEncoderD_nonmult (c : Cfg) (pf : List (List Nat) → Nat → List Nat)
    (rng : Nat → Nat → Nat) (wErr : Nat → Nat → Bool) (input : List Nat)
    (hss : 0 < stripeSize c) (hnd : ¬ stripeSize c ∣ input.length) :
    runEncoderD c pf rng wErr input
      = ⟨Outcome.ok, input.length / stripeSize c + 1, input.length,
          (List.range (input.length / stripeSize c + 1)).map (permAt c rng),
          blocksUpTo c pf rng wErr input (input.length / stripeSize c + 1)
            ++ closeEvs c,
          bufAt c input (input.length / stripeSize c)⟩ := by
  have hdm := Nat.div_add_mod input.length (stripeSize c)
  have hr : input.length % stripeSize c < stripeSize c := Nat.mod_lt _ hss
  have hr0 : input.length % stripeSize c ≠ 0 := by
    intro h0
    exact hnd (Nat.dvd_of_mod_eq_zero h0)
  have hsub : input.length - input.length / stripeSize c * stripeSize c
      = input.length % stripeSize c := by
    rw [Nat.mul_comm]
    omega
  unfold runEncoderD runEncoderWith
  rw [stripeNum_of_nonmult c input.length hss hnd]
  have hf : input.length / stripeSize c + 1 + 1 = 2 + input.length / stripeSize c := by
    omega
  rw [hf]
  have he := encLoop_engine c pf rng wErr input
    (input.length / stripeSize c + 1) (input.length / stripeSize c) 0 2 []
    (by omega) (by rw [Nat.zero_add]; exact Nat.div_mul_le_self _ _)
  rw [prevBuf_zero] at he
  simp only [Nat.zero_mul, Nat.zero_add, List.range_zero, List.map_nil,
    List.nil_append, Nat.sub_zero] at he
  have hrep : input.length / stripeSize c + 1 - input.length / stripeSize c
      = 1 := by omega
  rw [hrep] at he
  rw [he]
  simp only [encLoop]
  have hb : min (stripeSize c)
      (min (input.length - input.length / stripeSize c * stripeSize c)
        (stripeSize c)) = input.length % stripeSize c := by
    rw [hsub]
    omega
  rw [hb]
  have hledlen : ((List.range (input.length / stripeSize c)).map (permAt c rng)
      ++ List.replicate 1 ([] : List Nat)).length
      = input.length / stripeSize c + 1 := by
    simp
  rw [hledlen]
  rw [if_pos (by omega : input.length / stripeSize c
    < input.length / stripeSize c + 1)]
  rw [if_pos hr]
  have hbuf : (input.drop (input.length / stripeSize c * stripeSize c)).take
        (input.length % stripeSize c)
      ++ (prevBuf c input (input.length / stripeSize c)).drop
        (input.length % stripeSize c)
      = bufAt c input (input.length / stripeSize c) := by
    unfold bufAt readLen
    rw [hsub]
    rw [Nat.min_eq_left (Nat.le_of_lt hr)]
  have hldg : (((List.range (input.length / stripeSize c)).map (permAt c rng)
        ++ List.replicate 1 ([] : List Nat)).set (input.length / stripeSize c)
          (genRandomArr (shardCount c) (rng (input.length / stripeSize c))))
      = (List.range (input.length / stripeSize c + 1)).map (permAt c rng) := by
    have hlen : ((List.range (input.length / stripeSize c)).map
        (permAt c rng)).length = input.length / stripeSize c := by simp
    have hsa := set_append_len
      ((List.range (input.length / stripeSize c)).map (permAt c rng))
      (List.replicate 1 ([] : List Nat))
      (genRandomArr (shardCount c) (rng (input.length / stripeSize c)))
    rw [hlen] at hsa
    rw [hsa, List.range_succ, List.map_append]
    simp [permAt]
  rw [hbuf, hldg]
  have hpos : input.length / stripeSize c * stripeSize c
      + input.length % stripeSize c = input.length := by
    rw [Nat.mul_comm]
    omega
  rw [hpos]
  have hblk : stripeWrites c (wErr (input.length / stripeSize c))
        (encodeShards pf c (bufAt c input (input.length / stripeSize c)))
        (genRandomArr (shardCount c) (rng (input.length / stripeSize c)))
      = blockAt c pf rng wErr input (input.length / stripeSize c) := by
    unfold blockAt shardsAt permAt
    rfl
  rw [hblk]
  have hfold : (List.map (fun t => blockAt c pf rng wErr input t)
        (List.range (input.length / stripeSize c))).flatten
      = blocksUpTo c pf rng wErr input (input.length / stripeSize c) := rfl
  rw [hfold, ← blocksUpTo_succ]

theorem writesTo_append (a b : List Ev) (d : Nat) :
    writesTo (a ++ b) d = writesTo a d ++ writesTo b d := by
  simp [writesTo]

theorem opensOf_append (a b : List Ev) (d : Nat) :
    opensOf (a ++ b) d = opensOf a d + opensOf b d := by
  simp [opensOf]

theorem closesOf_append (a b : List Ev) (d : Nat) :
    closesOf (a ++ b) d = closesOf a d + closesOf b d := by
  simp [closesOf]

theorem filter_range_eq_of_lt (n d : Nat) (h : d < n) :
    (List.range n).filter (fun i => decide (i = d)) = [d] := by
  induction n with
  | zero => omega
  | succ n ih =>
    rw [List.range_succ, List.filter_append]
    by_cases hd : d < n
    · rw [ih hd]
      have hn : (List.filter (fun i => decide (i = d)) [n]) = [] := by
        simp
        omega
      rw [hn, List.append_nil]
    · have hdn : d = n := by omega
      subst hdn
      have h1 : (List.range d).filter (fun i => decide (i = d)) = [] := by
        rw [List.filter_eq_nil_iff]
        intro a ha
        simp [List.mem_range] at ha
        simp
        omega
      rw [h1]
      simp

theorem filter_range_eq_of_ge (n d : Nat) (h : n ≤ d) :
    (List.range n).filter (fun i => decide (i = d)) = [] := by
  rw [List.filter_eq_nil_iff]
  intro a ha
  simp [List.mem_range] at ha
  simp
  omega

theorem writesTo_blockList (g : Nat → List Nat) (w : Nat → Bool) (d : Nat)
    (ns : List Nat) :
    writesTo ((ns.map (fun i => [Ev.fop i, Ev.fwr i (g i) (w i)])).flatten) d
      = ((ns.filter (fun i => decide (i = d))).map g) := by
  induction ns with
  | nil => rfl
  | cons i t ih =>
    rw [List.map_cons, List.flatten_cons, writesTo_append, ih]
    by_cases h : i = d
    · subst h
      simp [writesTo]
    · simp [writesTo, h]

theorem opensOf_blockList (g : Nat → List Nat) (w : Nat → Bool) (d : Nat)
    (ns : List Nat) :
    opensOf ((ns.map (fun i => [Ev.fop i, Ev.fwr i (g i) (w i)])).flatten) d
      = (ns.filter (fun i => decide (i = d))).length := by
  induction ns with
  | nil => rfl
  | cons i t ih =>
    rw [List.map_cons, List.flatten_cons, opensOf_append, ih]
    by_cases h : i = d
    · subst h
      simp [opensOf]
      omega
    · simp [opensOf, h]

theorem closesOf_blockList (g : Nat → List Nat) (w : Nat → Bool) (d : Nat)
    (ns : List Nat) :
    closesOf ((ns.map (fun i => [Ev.fop i, Ev.fwr i (g i) (w i)])).flatten) d
      = 0 := by
  induction ns with
  | nil => rfl
  | cons i t ih =>
    rw [List.map_cons, List.flatten_cons, closesOf_append, ih]
    simp [closesOf]

theorem writesTo_stripeWrites (c : Cfg) (we : Nat → Bool)
    (shards : List (List Nat)) (perm : List Nat) (d : Nat)
    (h : d < shardCount c) :
    writesTo (stripeWrites c we shards perm) d
      = [shards.getD (perm.getD d 0) []] := by
  unfold stripeWrites
  rw [writesTo_blockList (fun i => shards.getD (perm.getD i 0) []) we d _]
  rw [filter_range_eq_of_lt _ _ h]
  rfl

theorem opensOf_stripeWrites (c : Cfg) (we : Nat → Bool)
    (shards : List (List Nat)) (perm : List Nat) (d : Nat)
    (h : d < shardCount c) :
    opensOf (stripeWrites c we shards perm) d = 1 := by
  unfold stripeWrites
  rw [opensOf_blockList (fun i => shards.getD (perm.getD i 0) []) we d _]
  rw [filter_range_eq_of_lt _ _ h]
  rfl

theorem closesOf_stripeWrites (c : Cfg) (we : Nat → Bool)
    (shards : List (List Nat)) (perm : List Nat) (d : Nat) :
    closesOf (stripeWrites c we shards perm) d = 0 := by
  unfold stripeWrites
  rw [closesOf_blockList (fun i => shards.getD (perm.getD i 0) []) we d _]

theorem writesTo_closeEvs (c : Cfg) (d : Nat) :
    writesTo (closeEvs c) d = [] := by
  unfold closeEvs writesTo
  induction (List.range (shardCount c)) with
  | nil => rfl
  | cons i t _ => simp

theorem opensOf_closeEvs (c : Cfg) (d : Nat) :
    opensOf (closeEvs c) d = 0 := by
  unfold closeEvs opensOf
  induction (List.range (shardCount c)) with
  | nil => rfl
  | cons i t _ => simp

theorem closesOf_closeEvs (c : Cfg) (d : Nat) (h : d < shardCount c) :
    closesOf (closeEvs c) d = 1 := by
  unfold closeEvs closesOf
  have key : ∀ ns : List Nat,
      ((ns.map Ev.fcl).filter (fun e => e = Ev.fcl d)).length
        = (ns.filter (fun i => decide (i = d))).length := by
    intro ns
    induction ns with
    | nil => rfl
    | cons i t ih =>
      by_cases hh : i = d
      · subst hh
        simp [ih]
      · simp [hh, ih]
  rw [key, filter_range_eq_of_lt _ _ h]
  rfl

theorem writesTo_blocksUpTo (c : Cfg) (pf : List (List Nat) → Nat → List Nat)
    (rng : Nat → Nat → Nat) (wErr : Nat → Nat → Bool) (input : List Nat)
    (d : Nat) (hd : d < shardCount c) (n : Nat) :
    writesTo (blocksUpTo c pf rng wErr input n) d
      = (List.range n).map
          (fun s => (shardsAt c pf input s).getD ((permAt c rng s).getD d 0) []) := by
  induction n with
  | zero => rfl
  | succ n ih =>
    rw [blocksUpTo_succ, writesTo_append, ih, List.range_succ, List.map_append]
    unfold blockAt
    rw [writesTo_stripeWrites c _ _ _ d hd]
    rfl

theorem opensOf_blocksUpTo (c : Cfg) (pf : List (List Nat) → Nat → List Nat)
    (rng : Nat → Nat → Nat) (wErr : Nat → Nat → Bool) (input : List Nat)
    (d : Nat) (hd : d < shardCount c) (n : Nat) :
    opensOf (blocksUpTo c pf rng wErr input n) d = n := by
  induction n with
  | zero => rfl
  | succ n ih =>
    rw [blocksUpTo_succ, opensOf_append, ih]
    unfold blockAt
    rw [opensOf_stripeWrites c _ _ _ d hd]

theorem closesOf_blocksUpTo (c : Cfg) (pf : List (List Nat) → Nat → List Nat)
    (rng : Nat → Nat → Nat) (wErr : Nat → Nat → Bool) (input : List Nat)
    (d : Nat) (n : Nat) :
    closesOf (blocksUpTo c pf rng wErr input n) d = 0 := by
  induction n with
  | zero => rfl
  | succ n ih =>
    rw [blocksUpTo_succ, closesOf_append, ih]
    unfold blockAt
    rw [closesOf_stripeWrites]

theorem windowAt_length (c : Cfg) (input : List Nat) (s : Nat)
    (h : (s + 1) * stripeSize c ≤ input.length) :
    (windowAt c input s).length = stripeSize c := by
  unfold windowAt
  rw [Nat.succ_mul] at h
  simp
  omega

theorem prevBuf_length (c : Cfg) (input : List Nat) (s : Nat)
    (h : s * stripeSize c ≤ input.length) :
    (prevBuf c input s).length = stripeSize c := by
  unfold prevBuf
  split
  · simp
  · rename_i h0
    apply windowAt_length
    have hs : s - 1 + 1 = s := by omega
    rw [hs]
    exact h

theorem bufAt_length (c : Cfg) (input : List Nat) (s : Nat)
    (h : s * stripeSize c ≤ input.length) :
    (bufAt c input s).length = stripeSize c := by
  unfold bufAt
  rw [List.length_append, List.length_take, List.length_drop, List.length_drop,
    prevBuf_length c input s h]
  unfold readLen
  omega

/-- The permutation recorded for a stripe has length `k + m`. -/
theorem permAt_length (c : Cfg) (rng : Nat → Nat → Nat) (s : Nat) :
    (permAt c rng s).length = shardCount c := by
  have hp := genRandomArr_perm (shardCount c) (rng s)
  have := hp.length_eq
  simpa using this

/-- Every entry of the recorded permutation is a valid physical index. -/
theorem permAt_getD_lt (c : Cfg) (rng : Nat → Nat → Nat) (s d : Nat)
    (hd : d < shardCount c) :
    (permAt c rng s).getD d 0 < shardCount c := by
  have hp := genRandomArr_perm (shardCount c) (rng s)
  have hlen : (permAt c rng s).length = shardCount c := permAt_length c rng s
  have hdl : d < (permAt c rng s).length := by omega
  have hmem : (permAt c rng s).getD d 0 ∈ permAt c rng s := by
    rw [List.getD_eq_getElem _ _ hdl]
    exact List.getElem_mem hdl
  have hmem2 := hp.mem_iff.mp hmem
  rw [List.mem_range] at hmem2
  exact hmem2

theorem shardsAt_length (c : Cfg) (pf : List (List Nat) → Nat → List Nat)
    (input : List Nat) (s : Nat) :
    (shardsAt c pf input s).length = shardCount c := by
  unfold shardsAt encodeShards splitShards shardCount
  simp

/-- Every shard the codec hands the writer is `blockSize` bytes, provided
the parity oracle honors the spec's fixed shard size. -/
theorem shardsAt_getD_length (c : Cfg) (pf : List (List Nat) → Nat → List Nat)
    (input : List Nat) (s j : Nat)
    (hpf : ∀ ds t, (pf ds t).length = c.bs)
    (hs : s * stripeSize c ≤ input.length)
    (hj : j < shardCount c) :
    ((shardsAt c pf input s).getD j []).length = c.bs := by
  have hbuf : (bufAt c input s).length = stripeSize c := bufAt_length c input s hs
  unfold shardsAt encodeShards
  by_cases hjk : j < c.k
  · rw [List.getD_append _ _ _ _ (by simp [splitShards]; exact hjk)]
    unfold splitShards
    have hget : ((List.range c.k).map
          (fun i => ((bufAt c input s).drop (i * c.bs)).take c.bs)).getD j []
        = ((bufAt c input s).drop (j * c.bs)).take c.bs := by
      rw [List.getD_eq_getElem _ _ (by simp; exact hjk)]
      simp
    rw [hget, List.length_take, List.length_drop, hbuf]
    unfold stripeSize
    have hmul : (j + 1) * c.bs ≤ c.k * c.bs := Nat.mul_le_mul_right _ (by omega)
    rw [Nat.succ_mul] at hmul
    omega
  · rw [List.getD_append_right _ _ _ _ (by simp [splitShards]; omega)]
    have hlen : (splitShards c (bufAt c input s)).length = c.k := by
      simp [splitShards]
    rw [hlen]
    have hjm : j - c.k < c.m := by
      unfold shardCount at hj
      omega
    have hget : ((List.range c.m).map
          (pf (splitShards c (bufAt c input s)))).getD (j - c.k) []
        = pf (splitShards c (bufAt c input s)) (j - c.k) := by
      rw [List.getD_eq_getElem _ _ (by simp; exact hjm)]
      simp
    rw [hget]
    exact hpf _ _

/-- Total bytes appended to destination `d` over the whole trace. -/
def totalBytesTo (evs : List Ev) (d : Nat) : Nat :=
  ((writesTo evs d).map List.length).sum

/-- In every regular-file run, the sequence of byte strings appended to
destination `d` is, stripe by stripe in increasing stripe order, the bytes
of shard `distribution[s][d]` of that stripe. -/
theorem runEncoderD_writes (c : Cfg) (pf : List (List Nat) → Nat → List Nat)
    (rng : Nat → Nat → Nat) (wErr : Nat → Nat → Bool) (input : List Nat)
    (d : Nat) (hss : 0 < stripeSize c) (hd : d < shardCount c) :
    writesTo ((runEncoderD c pf rng wErr input).events) d
      = (List.range ((runEncoderD c pf rng wErr input).stripes)).map
          (fun s => (shardsAt c pf input s).getD ((permAt c rng s).getD d 0) []) := by
  by_cases h0 : input.length = 0
  · have hnil : input = [] := List.length_eq_zero.mp h0
    subst hnil
    rw [runEncoderD_nil c pf rng wErr hss]
    rfl
  · by_cases hdvd : stripeSize c ∣ input.length
    · obtain ⟨q, hq⟩ := hdvd
      have hle : input.length = q * stripeSize c := by
        rw [hq]
        ring
      rw [runEncoderD_exact c pf rng wErr input q hss hle]
      exact writesTo_blocksUpTo c pf rng wErr input d hd q
    · rw [runEncoderD_nonmult c pf rng wErr input hss hdvd]
      show writesTo (blocksUpTo c pf rng wErr input
        (input.length / stripeSize c + 1) ++ closeEvs c) d = _
      rw [writesTo_append, writesTo_closeEvs, List.append_nil]
      exact writesTo_blocksUpTo c pf rng wErr input d hd _

/-- In every regular-file run, destination `d` is opened exactly once per
processed stripe. -/
theorem runEncoderD_opens (c : Cfg) (pf : List (List Nat) → Nat → List Nat)
    (rng : Nat → Nat → Nat) (wErr : Nat → Nat → Bool) (input : List Nat)
    (d : Nat) (hss : 0 < stripeSize c) (hd : d < shardCount c) :
    opensOf ((runEncoderD c pf rng wErr input).events) d
      = (runEncoderD c pf rng wErr input).stripes := by
  by_cases h0 : input.length = 0
  · have hnil : input = [] := List.length_eq_zero.mp h0
    subst hnil
    rw [runEncoderD_nil c pf rng wErr hss]
    rfl
  · by_cases hdvd : stripeSize c ∣ input.length
    · obtain ⟨q, hq⟩ := hdvd
      have hle : input.length = q * stripeSize c := by
        rw [hq]
        ring
      rw [runEncoderD_exact c pf rng wErr input q hss hle]
      exact opensOf_blocksUpTo c pf rng wErr input d hd q
    · rw [runEncoderD_nonmult c pf rng wErr input hss hdvd]
      show opensOf (blocksUpTo c pf rng wErr input
        (input.length / stripeSize c + 1) ++ closeEvs c) d = _
      rw [opensOf_append, opensOf_closeEvs, opensOf_blocksUpTo c pf rng wErr input d hd _]

/-- In every regular-file run, destination `d` is closed exactly once when
the run terminates normally, and never when the ledger assignment crashes
the process (the closes of lines 155-157 are skipped then). -/
theorem runEncoderD_closes (c : Cfg) (pf : List (List Nat) → Nat → List Nat)
    (rng : Nat → Nat → Nat) (wErr : Nat → Nat → Bool) (input : List Nat)
    (d : Nat) (hss : 0 < stripeSize c) (hd : d < shardCount c) :
    closesOf ((runEncoderD c pf rng wErr input).events) d
      = (if (runEncoderD c pf rng wErr input).outcome = Outcome.ok then 1 else 0) := by
  by_cases h0 : input.length = 0
  · have hnil : input = [] := List.length_eq_zero.mp h0
    subst hnil
    rw [runEncoderD_nil c pf rng wErr hss]
    rfl
  · by_cases hdvd : stripeSize c ∣ input.length
    · obtain ⟨q, hq⟩ := hdvd
      have hle : input.length = q * stripeSize c := by
        rw [hq]
        ring
      rw [runEncoderD_exact c pf rng wErr input q hss hle]
      show closesOf (blocksUpTo c pf rng wErr input q) d = _
      rw [closesOf_blocksUpTo]
      rfl
    · rw [runEncoderD_nonmult c pf rng wErr input hss hdvd]
      show closesOf (blocksUpTo c pf rng wErr input
        (input.length / stripeSize c + 1) ++ closeEvs c) d = _
      rw [closesOf_append, closesOf_blocksUpTo, closesOf_closeEvs c d hd]
      rfl

/-- C1: the claim says a run over an input whose length is a positive
exact multiple of `k * blockSize` terminates normally after
`fileSize / (k*blockSize)` stripes.  Evaluating the code at such an input
(`k=1, m=1, blockSize=2`, the 2-byte input `[1,2]`): the single stripe is
processed and written correctly (`k+m = 2` shards of `blockSize = 2` bytes
each), but the loop then runs one extra iteration (the last read was full,
so no break), reads 0 bytes at EOF, and crashes assigning
`distribution[1]` on the 1-entry ledger - the run does not terminate
normally. -/
theorem claimC1 :
    (runEncoder ⟨1,1,2⟩ (fun _ _ => [0,0]) (fun _ i => i) [1,2]).outcome
      = Outcome.oobCrash
    ∧ (runEncoder ⟨1,1,2⟩ (fun _ _ => [0,0]) (fun _ i => i) [1,2]).stripes = 1
    ∧ stripeNum ⟨1,1,2⟩ 2 = 1
    ∧ writesTo (runEncoder ⟨1,1,2⟩ (fun _ _ => [0,0]) (fun _ i => i)
        [1,2]).events 0 = [[1,2]]
    ∧ writesTo (runEncoder ⟨1,1,2⟩ (fun _ _ => [0,0]) (fun _ i => i)
        [1,2]).events 1 = [[0,0]] := by
  decide

/-- C2: the claim says the trailing region of the final stripe buffer is
zero regardless of earlier stripes.  Evaluating the code at `k=1, m=1,
blockSize=2`, input `[7,8,9]`: the final stripe reads 1 byte (`9`); the
byte at offset 1 (at and beyond the read count) is `8` - left over from
the previous stripe in the reused buffer - not `0`. -/
theorem claimC2 :
    (runEncoder ⟨1,1,2⟩ (fun _ _ => [0,0]) (fun _ i => i) [7,8,9]).outcome
      = Outcome.ok
    ∧ (runEncoder ⟨1,1,2⟩ (fun _ _ => [0,0]) (fun _ i => i)
        [7,8,9]).lastData = [9, 8]
    ∧ (runEncoder ⟨1,1,2⟩ (fun _ _ => [0,0]) (fun _ i => i)
        [7,8,9]).lastData.getD 1 0 = 8 := by
  decide

/-- C3 counterexample: the claim says shard `i` is written to destination
`permutation[i]`.  Concrete run: `k=2, m=1, blockSize=1`, input `[5]`,
draws chosen so the recorded permutation is `[2,0,1]`, parity shard `[9]`.
The shards are `[5], [0], [9]`; the claim predicts destination
`permutation[0] = 2` receives shard 0 (`[5]`), but it receives `[0]`
(shard 1 = `permutation[2]`): the code maps destinations to shards, not
shards to destinations. -/
theorem claimC3_counterexample :
    ¬ (∀ i, i < shardCount ⟨2,1,1⟩ →
        writesTo (runEncoder ⟨2,1,1⟩ (fun _ _ => [9])
            (fun _ i => if i = 2 then 1 else 0) [5]).events
          ((permAt ⟨2,1,1⟩ (fun _ i => if i = 2 then 1 else 0) 0).getD i 0)
          = [(shardsAt ⟨2,1,1⟩ (fun _ _ => [9]) [5] 0).getD i []]) := by
  decide

/-- C3 amended: for every stripe `s` and every physical destination `i`,
the bytes appended to destination `i` during stripe `s` are those of shard
`distribution[s][i]` - i.e. destination `i` receives shard
`permutation[i]` (shard `j` lands at `permutation⁻¹[j]`), the inverse of
the claimed direction. -/
theorem claimC3 (c : Cfg) (pf : List (List Nat) → Nat → List Nat)
    (rng : Nat → Nat → Nat) (wErr : Nat → Nat → Bool) (input : List Nat)
    (d : Nat) (hk : 0 < c.k) (hbs : 0 < c.bs) (hd : d < shardCount c) :
    writesTo ((runEncoderD c pf rng wErr input).events) d
      = (List.range ((runEncoderD c pf rng wErr input).stripes)).map
          (fun s => (shardsAt c pf input s).getD ((permAt c rng s).getD d 0) []) :=
  runEncoderD_writes c pf rng wErr input d (Nat.mul_pos hk hbs) hd

theorem claimC3_witness :
    0 < (Cfg.mk 1 1 2).k
    ∧ writesTo ((runEncoderD ⟨1,1,2⟩ (fun _ _ => [0,0]) (fun _ i => i)
          (fun _ _ => false) [7,8,9]).events) 0
        = (List.range ((runEncoderD ⟨1,1,2⟩ (fun _ _ => [0,0]) (fun _ i => i)
            (fun _ _ => false) [7,8,9]).stripes)).map
            (fun s => (shardsAt ⟨1,1,2⟩ (fun _ _ => [0,0]) [7,8,9] s).getD
              ((permAt ⟨1,1,2⟩ (fun _ i => i) s).getD 0 0) [])
    ∧ writesTo ((runEncoderD ⟨1,1,2⟩ (fun _ _ => [0,0]) (fun _ i => i)
          (fun _ _ => false) [7,8,9]).events) 0 = [[7,8],[9,8]] :=
  ⟨by decide,
   claimC3 ⟨1,1,2⟩ (fun _ _ => [0,0]) (fun _ i => i) (fun _ _ => false)
     [7,8,9] 0 (by decide) (by decide) (by decide),
   by decide⟩

/-- C4: the claim says a failed destination write aborts the run at once
with a non-zero status.  Evaluating the code with a write fault injected
at stripe 0, destination 0 (input `[7,8,9]`, `k=1, m=1, blockSize=2`):
line 147 discards the error `Write` returns (line 148 re-checks the stale
`OpenFile` error), so the run continues: the failed write appears in the
trace, both stripes complete, further writes (including to the same
destination) still happen, and the run ends normally. -/
theorem claimC4 :
    (runEncoderD ⟨1,1,2⟩ (fun _ _ => [0,0]) (fun _ i => i)
        (fun s d => s == 0 && d == 0) [7,8,9]).outcome = Outcome.ok
    ∧ (runEncoderD ⟨1,1,2⟩ (fun _ _ => [0,0]) (fun _ i => i)
        (fun s d => s == 0 && d == 0) [7,8,9]).stripes = 2
    ∧ Ev.fwr 0 [7,8] true ∈ (runEncoderD ⟨1,1,2⟩ (fun _ _ => [0,0])
        (fun _ i => i) (fun s d => s == 0 && d == 0) [7,8,9]).events
    ∧ writesTo (runEncoderD ⟨1,1,2⟩ (fun _ _ => [0,0]) (fun _ i => i)
        (fun s d => s == 0 && d == 0) [7,8,9]).events 0 = [[7,8],[9,8]] := by
  decide

/-- C5 counterexample: the claim says each destination file is opened
exactly once for the whole run.  In the 2-stripe run (`k=1, m=1,
blockSize=2`, input `[7,8,9]`) destination 0 is opened twice - once per
stripe (line 145 sits inside the per-stripe loop). -/
theorem claimC5_counterexample :
    ¬ opensOf (runEncoder ⟨1,1,2⟩ (fun _ _ => [0,0]) (fun _ i => i)
        [7,8,9]).events 0 = 1 := by
  decide

/-- C5 amended: every destination is re-opened (create-or-append) once
per processed stripe rather than once per run; the stripes appended to a
destination do appear in strictly increasing stripe order (the `s`-th
append is stripe `s`'s shard); each destination is closed exactly once
after the last stripe on normal termination, and not at all when the run
crashes. -/
theorem claimC5 (c : Cfg) (pf : List (List Nat) → Nat → List Nat)
    (rng : Nat → Nat → Nat) (wErr : Nat → Nat → Bool) (input : List Nat)
    (d : Nat) (hk : 0 < c.k) (hbs : 0 < c.bs) (hd : d < shardCount c) :
    opensOf ((runEncoderD c pf rng wErr input).events) d
        = (runEncoderD c pf rng wErr input).stripes
    ∧ writesTo ((runEncoderD c pf rng wErr input).events) d
        = (List.range ((runEncoderD c pf rng wErr input).stripes)).map
            (fun s => (shardsAt c pf input s).getD ((permAt c rng s).getD d 0) [])
    ∧ closesOf ((runEncoderD c pf rng wErr input).events) d
        = (if (runEncoderD c pf rng wErr input).outcome = Outcome.ok
            then 1 else 0) :=
  ⟨runEncoderD_opens c pf rng wErr input d (Nat.mul_pos hk hbs) hd,
   runEncoderD_writes c pf rng wErr input d (Nat.mul_pos hk hbs) hd,
   runEncoderD_closes c pf rng wErr input d (Nat.mul_pos hk hbs) hd⟩

theorem claimC5_witness :
    0 < (Cfg.mk 1 1 2).k
    ∧ (opensOf ((runEncoderD ⟨1,1,2⟩ (fun _ _ => [0,0]) (fun _ i => i)
          (fun _ _ => false) [7,8,9]).events) 0
        = (runEncoderD ⟨1,1,2⟩ (fun _ _ => [0,0]) (fun _ i => i)
          (fun _ _ => false) [7,8,9]).stripes
      ∧ writesTo ((runEncoderD ⟨1,1,2⟩ (fun _ _ => [0,0]) (fun _ i => i)
          (fun _ _ => false) [7,8,9]).events) 0
        = (List.range ((runEncoderD ⟨1,1,2⟩ (fun _ _ => [0,0]) (fun _ i => i)
            (fun _ _ => false) [7,8,9]).stripes)).map
            (fun s => (shardsAt ⟨1,1,2⟩ (fun _ _ => [0,0]) [7,8,9] s).getD
              ((permAt ⟨1,1,2⟩ (fun _ i => i) s).getD 0 0) [])
      ∧ closesOf ((runEncoderD ⟨1,1,2⟩ (fun _ _ => [0,0]) (fun _ i => i)
          (fun _ _ => false) [7,8,9]).events) 0
        = (if (runEncoderD ⟨1,1,2⟩ (fun _ _ => [0,0]) (fun _ i => i)
            (fun _ _ => false) [7,8,9]).outcome = Outcome.ok then 1 else 0))
    ∧ opensOf ((runEncoderD ⟨1,1,2⟩ (fun _ _ => [0,0]) (fun _ i => i)
        (fun _ _ => false) [7,8,9]).events) 0 = 2 :=
  ⟨by decide,
   claimC5 ⟨1,1,2⟩ (fun _ _ => [0,0]) (fun _ i => i) (fun _ _ => false)
     [7,8,9] 0 (by decide) (by decide) (by decide),
   by decide⟩

/-- C6: a configuration with `k + m > 256` is rejected by the check of
lines 85-88 with exit status 1 before the codec is initialised and before
any file I/O: the run produces no events at all. -/
theorem claimC6 (c : Cfg) (pf : List (List Nat) → Nat → List Nat)
    (rng : Nat → Nat → Nat) (input : List Nat) (h : 256 < c.k + c.m) :
    mainRun c pf rng input = (1, []) := by
  unfold mainRun
  rw [if_pos h]

theorem claimC6_witness :
    256 < (Cfg.mk 255 2 1024).k + (Cfg.mk 255 2 1024).m
    ∧ mainRun (Cfg.mk 255 2 1024) (fun _ _ => []) (fun _ _ => 0) [1,2,3]
        = (1, []) :=
  ⟨by decide,
   claimC6 (Cfg.mk 255 2 1024) (fun _ _ => []) (fun _ _ => 0) [1,2,3]
     (by decide)⟩

/-- C7: for every `n` and every state of the pseudo-random source (draw
oracle `r`), `genRandomArr n r` is a full permutation of `[0, n)`: a
rearrangement of `[0, ..., n-1]`, without duplicates, whose members are
exactly the naturals below `n`; `n = 0` and `n = 1` give the trivial
permutations. -/
theorem claimC7 (n : Nat) (r : Nat → Nat) :
    List.Perm (genRandomArr n r) (List.range n)
    ∧ (genRandomArr n r).Nodup
    ∧ (∀ x, x ∈ genRandomArr n r ↔ x < n)
    ∧ (genRandomArr n r).length = n
    ∧ genRandomArr 0 r = []
    ∧ genRandomArr 1 r = [0] := by
  have hp := genRandomArr_perm n r
  refine ⟨hp, ?_, ?_, ?_, rfl, rfl⟩
  · exact hp.nodup_iff.mpr (List.nodup_range n)
  · intro x
    rw [hp.mem_iff, List.mem_range]
  · rw [hp.length_eq, List.length_range]

/-- C9: with a zero-length input and any valid configuration, `stripeNum`
is 0, so the ledger is empty; the loop still runs its first iteration and
the assignment `distribution[0]` is out of range: the process crashes
before any destination I/O, with no stripe processed. -/
theorem claimC9 (c : Cfg) (pf : List (List Nat) → Nat → List Nat)
    (rng : Nat → Nat → Nat) (hk : 0 < c.k) (hbs : 0 < c.bs) :
    (runEncoder c pf rng []).outcome = Outcome.oobCrash
    ∧ (runEncoder c pf rng []).stripes = 0
    ∧ (runEncoder c pf rng []).events = []
    ∧ (runEncoder c pf rng []).ledger = []
    ∧ stripeNum c 0 = 0 := by
  have hss : 0 < stripeSize c := Nat.mul_pos hk hbs
  unfold runEncoder
  rw [runEncoderD_nil c pf rng _ hss]
  exact ⟨rfl, rfl, rfl, rfl, stripeNum_of_zero c hss⟩

theorem claimC9_witness :
    0 < (Cfg.mk 4 2 1024).k
    ∧ ((runEncoder (Cfg.mk 4 2 1024) (fun _ _ => []) (fun _ _ => 0) []).outcome
          = Outcome.oobCrash
      ∧ (runEncoder (Cfg.mk 4 2 1024) (fun _ _ => []) (fun _ _ => 0) []).stripes = 0
      ∧ (runEncoder (Cfg.mk 4 2 1024) (fun _ _ => []) (fun _ _ => 0) []).events = []
      ∧ (runEncoder (Cfg.mk 4 2 1024) (fun _ _ => []) (fun _ _ => 0) []).ledger = []
      ∧ stripeNum (Cfg.mk 4 2 1024) 0 = 0) :=
  ⟨by decide,
   claimC9 (Cfg.mk 4 2 1024) (fun _ _ => []) (fun _ _ => 0)
     (by decide) (by decide)⟩

/-- C10: there is a read behavior the `io.Reader` contract permits - a
read delivering fewer than `k * blockSize` bytes without error while
input bytes remain - under which the encoder takes the stripe for the
final one (`b < stripeSize` triggers the break), terminates normally, and
never processes the remaining bytes: with each read capped at 1 byte,
the 4-byte input stops after one stripe with the cursor at 1. -/
theorem claimC10 :
    ∃ rdr : Nat → Nat,
      (runEncoderWith ⟨1,1,2⟩ (fun _ _ => [0,0]) (fun _ i => i)
          (fun _ _ => false) rdr [1,2,3,4]).outcome = Outcome.ok
      ∧ (runEncoderWith ⟨1,1,2⟩ (fun _ _ => [0,0]) (fun _ i => i)
          (fun _ _ => false) rdr [1,2,3,4]).stripes = 1
      ∧ (runEncoderWith ⟨1,1,2⟩ (fun _ _ => [0,0]) (fun _ i => i)
          (fun _ _ => false) rdr [1,2,3,4]).pos = 1
      ∧ (runEncoderWith ⟨1,1,2⟩ (fun _ _ => [0,0]) (fun _ i => i)
          (fun _ _ => false) rdr [1,2,3,4]).pos
          < ([1,2,3,4] : List Nat).length :=
  ⟨fun _ => 1, by decide⟩

/-- C8: for any 10000-byte input with `k=4, m=2, blockSize=1024` (stripe
size 4096), the run processes exactly 3 stripes, writes `3 * 1024 = 3072`
bytes to each of the 6 destinations, and the final stripe is short by
`4096 - 1808 = 2288` bytes - but those 2288 trailing buffer bytes are a
copy of the previous stripe's bytes at the same offsets
(`input[5904 + t]`), not zero padding as the claim states. -/
theorem claimC8 (pf : List (List Nat) → Nat → List Nat)
    (rng : Nat → Nat → Nat) (wErr : Nat → Nat → Bool) (input : List Nat)
    (hlen : input.length = 10000)
    (hpf : ∀ ds t, (pf ds t).length = 1024) :
    (runEncoderD ⟨4,2,1024⟩ pf rng wErr input).outcome = Outcome.ok
    ∧ (runEncoderD ⟨4,2,1024⟩ pf rng wErr input).stripes = 3
    ∧ shardCount ⟨4,2,1024⟩ = 6
    ∧ stripeSize ⟨4,2,1024⟩ = 4096
    ∧ (∀ d, d < 6 →
        totalBytesTo ((runEncoderD ⟨4,2,1024⟩ pf rng wErr input).events) d
          = 3072)
    ∧ (runEncoderD ⟨4,2,1024⟩ pf rng wErr input).lastData.length = 4096
    ∧ (∀ t, t < 2288 →
        (runEncoderD ⟨4,2,1024⟩ pf rng wErr input).lastData.getD (1808 + t) 0
          = input.getD (5904 + t) 0) := by
  have hss : 0 < stripeSize ⟨4,2,1024⟩ := by decide
  have hnd : ¬ stripeSize ⟨4,2,1024⟩ ∣ input.length := by
    rw [hlen]
    decide
  have hF : input.length / stripeSize ⟨4,2,1024⟩ = 2 := by
    rw [hlen]
    decide
  have hrun := runEncoderD_nonmult ⟨4,2,1024⟩ pf rng wErr input hss hnd
  refine ⟨?_, ?_, by decide, by decide, ?_, ?_, ?_⟩
  · rw [hrun]
  · rw [hrun]
    show input.length / stripeSize ⟨4,2,1024⟩ + 1 = 3
    rw [hF]
  · intro d hd
    have hd6 : d < shardCount ⟨4,2,1024⟩ := hd
    rw [hrun]
    show totalBytesTo (blocksUpTo ⟨4,2,1024⟩ pf rng wErr input
      (input.length / stripeSize ⟨4,2,1024⟩ + 1) ++ closeEvs ⟨4,2,1024⟩) d
      = 3072
    unfold totalBytesTo
    rw [writesTo_append, writesTo_closeEvs, List.append_nil]
    rw [writesTo_blocksUpTo ⟨4,2,1024⟩ pf rng wErr input d hd6]
    rw [List.map_map, hF]
    have hconst : ∀ s ∈ List.range (2 + 1),
        (List.length ∘ (fun s => (shardsAt ⟨4,2,1024⟩ pf input s).getD
          ((permAt ⟨4,2,1024⟩ rng s).getD d 0) [])) s
        = (fun _ => 1024) s := by
      intro s hs
      rw [List.mem_range] at hs
      show ((shardsAt ⟨4,2,1024⟩ pf input s).getD
        ((permAt ⟨4,2,1024⟩ rng s).getD d 0) []).length = 1024
      apply shardsAt_getD_length ⟨4,2,1024⟩ pf input s _ hpf
      · rw [hlen]
        have hs2 : s ≤ 2 := by omega
        calc s * stripeSize ⟨4,2,1024⟩
            ≤ 2 * stripeSize ⟨4,2,1024⟩ := Nat.mul_le_mul_right _ hs2
          _ ≤ 10000 := by decide
      · exact permAt_getD_lt ⟨4,2,1024⟩ rng s d hd6
    rw [List.map_eq_map_iff.mpr hconst]
    decide
  · rw [hrun]
    show (bufAt ⟨4,2,1024⟩ input (input.length / stripeSize ⟨4,2,1024⟩)).length
      = 4096
    rw [bufAt_length ⟨4,2,1024⟩ input _ (Nat.div_mul_le_self _ _)]
    decide
  · intro t ht
    rw [hrun]
    show (bufAt ⟨4,2,1024⟩ input
        (input.length / stripeSize ⟨4,2,1024⟩)).getD (1808 + t) 0
      = input.getD (5904 + t) 0
    rw [hF]
    unfold bufAt
    have hrl : readLen ⟨4,2,1024⟩ input.length 2 = 1808 := by
      unfold readLen
      rw [hlen]
      decide
    rw [hrl]
    have hAlen : ((input.drop (2 * stripeSize ⟨4,2,1024⟩)).take 1808).length
        = 1808 := by
      rw [List.length_take, List.length_drop, hlen]
      decide
    rw [List.getD_append_right _ _ _ _ (by rw [hAlen]; omega)]
    rw [hAlen]
    have hpb : prevBuf ⟨4,2,1024⟩ input 2
        = (input.drop 4096).take 4096 := by
      simp [prevBuf, windowAt, stripeSize]
    rw [hpb]
    have hidx : 1808 + t - 1808 = t := by omega
    rw [hidx]
    rw [List.getD_eq_getElem?_getD, List.getD_eq_getElem?_getD]
    rw [List.getElem?_drop]
    have h48 : 1808 + t < 4096 := by omega
    rw [List.getElem?_take_of_lt h48]
    rw [List.getElem?_drop]
    have harith : 4096 + (1808 + t) = 5904 + t := by omega
    rw [harith]

theorem claimC8_witness :
    (List.replicate 10000 3).length = 10000
    ∧ (∀ ds t, (((fun _ _ => List.replicate 1024 0) :
        List (List Nat) → Nat → List Nat) ds t).length = 1024)
    ∧ (runEncoderD ⟨4,2,1024⟩ (fun _ _ => List.replicate 1024 0)
        (fun _ _ => 0) (fun _ _ => false)
        (List.replicate 10000 3)).outcome = Outcome.ok :=
  ⟨by rw [List.length_replicate], fun ds t => by rw [List.length_replicate],
   (claimC8 (fun _ _ => List.replicate 1024 0) (fun _ _ => 0)
     (fun _ _ => false) (List.replicate 10000 3)
     (by rw [List.length_replicate])
     (fun ds t => by rw [List.length_replicate])).1⟩

end SimpleEnc
